import Mathlib

/-!
# Verification of the tinypicresizer image-worker search algorithm

Shallow embedding of `src/workers/imageWorker.ts`: the quality binary search
(`strictBinarySearchQuality`), the dimension refinement loop, the forced-minimal
fallback, the final nudge pass, and the message protocol of `self.onmessage`.

Modelling conventions:
* JavaScript numbers are modelled by exact rationals (`ℚ`) for qualities and
  scale factors, and by `ℕ`/`ℤ` for sizes, dimensions and gaps.  All quality
  bounds manipulated by the binary search are dyadic rationals that are exactly
  representable as IEEE doubles, so the rational model is exact there.  The
  scale factors 1.1, 1.05, 1.02, 0.9, 0.8 are not exact doubles, but their
  double images err upward by less than 1e-15 relative, and the rational
  products `w * factor` are multiples of 1/100 (resp. never half-integers for
  `w / 1.02`), so `Math.round` agrees with rational round-half-up on every
  reachable input; we therefore model `Math.round` as `⌊x + 1/2⌋`.
* `JS` string truthiness (`if (image)`, `if (!bestUnderLimitImage)`) is
  modelled as comparison with the empty string.
* The external encoder (`OffscreenCanvas.convertToBlob` composed with
  `FileReader.readAsDataURL`) is an opaque oracle from canvas width, canvas
  height, MIME type and quality to the produced base64 data URL.
* `Infinity` (the infeasibility marker of the quality search) is modelled by
  `⊤ : WithTop ℕ`.
* Ghost instrumentation, invisible to the algorithm's control flow: the quality
  search records the list of probes it makes (`probes`), loop states carry an
  encode counter, and the session records whether the forced-minimal fallback
  ran and what its exhausted-branch encode produced.
-/

namespace TinyPic

/-- The `format` field of `WorkerData`: `"jpeg" | "png"`. -/
inductive Format where
  | jpeg
  | png
deriving DecidableEq, Repr

/-- The opaque encoder capability: canvas width, canvas height, MIME type,
quality ↦ base64 data URL.  Models `convertToBlob` + `FileReader`. -/
abbrev BlobOracle := ℕ → ℕ → String → ℚ → String

/-- Embeds `calculateFileSizeKB`: `Math.round((base64.length * 3) / 4 / 1024)`.
`Math.round` on a nonnegative double is `⌊x + 1/2⌋`, and
`⌊3n/4096 + 1/2⌋ = (6n + 4096) / 8192` in natural division; the double
computation is exact (all intermediates are dyadic below 2^53). -/
def calculateFileSizeKB (base64 : String) : ℕ :=
  (6 * base64.length + 4096) / 8192

/-- The MIME type passed to `convertToBlob`:
`image/${format === "png" ? "webp" : "jpeg"}`. -/
def mimeFor : Format → String
  | .png => "image/webp"
  | .jpeg => "image/jpeg"

/-- The quality passed to `convertToBlob`:
`format === "png" ? 1.0 : quality`. -/
def qualityArg : Format → ℚ → ℚ
  | .png, _ => 1
  | .jpeg, q => q

/-- Embeds `resizeImage`: sets the canvas to `width × height`, draws the bitmap and
converts to a blob with the format-dispatched MIME type and quality.  The
bitmap is fixed for a session and absorbed into the oracle. -/
def resizeImage (blob : BlobOracle) (width height : ℕ) (quality : ℚ)
    (format : Format) : String :=
  blob width height (mimeFor format) (qualityArg format quality)

/-- Models `Math.round` on a nonnegative value: round half up. -/
def jsRound (x : ℚ) : ℕ :=
  (⌊x + 1/2⌋).toNat

/-- Embeds `scaleDimensions`: round each dimension independently. -/
def scaleDimensions (width height : ℕ) (factor : ℚ) : ℕ × ℕ :=
  (jsRound (width * factor), jsRound (height * factor))

/-- Mutable state of the `while (high - low > 0.01)` loop of
`strictBinarySearchQuality`.  `probes` is ghost: the `(quality, size)` of each
encode made by the loop, in order. -/
structure BSState where
  low : ℚ
  high : ℚ
  bestUnderLimitImage : String
  bestUnderLimitSize : ℕ
  probes : List (ℚ × ℕ)
deriving DecidableEq, Repr

/-- One execution of the binary-search loop body per unit of fuel, guarded by
`high - low > 0.01` exactly as in the source; the interval halves every
iteration, so from `high - low = 1` the guard fails after 7 iterations and any
fuel ≥ 7 computes the loop's exit state (`bsLoop_fuel`). -/
def bsLoop (blob : BlobOracle) (format : Format) (width height targetSizeKB : ℕ) :
    ℕ → BSState → BSState
  | 0, s => s
  | fuel + 1, s =>
    if s.high - s.low > 1/100 then
      let mid := (s.low + s.high) / 2
      let candidate := resizeImage blob width height mid format
      let size := calculateFileSizeKB candidate
      if size ≤ targetSizeKB then
        if size > s.bestUnderLimitSize then
          bsLoop blob format width height targetSizeKB fuel
            { low := mid, high := s.high, bestUnderLimitImage := candidate,
              bestUnderLimitSize := size, probes := s.probes ++ [(mid, size)] }
        else
          bsLoop blob format width height targetSizeKB fuel
            { s with low := mid, probes := s.probes ++ [(mid, size)] }
      else
        bsLoop blob format width height targetSizeKB fuel
          { s with high := mid, probes := s.probes ++ [(mid, size)] }
    else s

/-- Result of `strictBinarySearchQuality`: `{ image, fileSize }`, with
`fileSize = ⊤` modelling `Infinity`.  `probes` is ghost: every encode the
search performed. -/
structure SearchResult where
  image : String
  fileSize : WithTop ℕ
  probes : List (ℚ × ℕ)
deriving DecidableEq, Repr

/-- Fuel for the binary-search loop; any value ≥ 7 is exact (`bsLoop_fuel`). -/
def bsFuel : ℕ := 64

/-- Embeds `strictBinarySearchQuality`: binary search for the largest quality whose
encoded size is ≤ `targetSizeKB`; if the loop records no feasible candidate,
one last encode at the final `low`, accepted only if its size is under the
target, otherwise the explicit infeasibility signal `("", Infinity)`. -/
def strictBinarySearchQuality (blob : BlobOracle) (format : Format)
    (width height targetSizeKB : ℕ) : SearchResult :=
  let s := bsLoop blob format width height targetSizeKB bsFuel
    { low := 0, high := 1, bestUnderLimitImage := "", bestUnderLimitSize := 0,
      probes := [] }
  if s.bestUnderLimitImage = "" then
    let finalCandidate := resizeImage blob width height s.low format
    let finalSize := calculateFileSizeKB finalCandidate
    if finalSize ≤ targetSizeKB then
      { image := finalCandidate, fileSize := (finalSize : WithTop ℕ),
        probes := s.probes ++ [(s.low, finalSize)] }
    else
      { image := "", fileSize := ⊤, probes := s.probes ++ [(s.low, finalSize)] }
  else
    { image := s.bestUnderLimitImage, fileSize := (s.bestUnderLimitSize : WithTop ℕ),
      probes := s.probes }

/-- A message posted with `self.postMessage`, mirroring `WorkerResult`'s four
optional fields. -/
structure WorkerMsg where
  resizedImage : Option String
  fileSize : Option ℕ
  progress : Option ℕ
  error : Option String
deriving DecidableEq, Repr

/-- Embeds `const maxIterations = 12`. -/
def maxIterations : ℕ := 12

/-- The progress message posted after round `i` of the dimension loop:
`Math.round(((i + 1) / maxIterations) * 100)`. -/
def progressMsgAt (i : ℕ) : WorkerMsg :=
  ⟨none, none, some (jsRound (((i + 1 : ℕ) : ℚ) / (maxIterations : ℚ) * 100)), none⟩

/-- Mutable state of the dimension refinement loop.  `msgs` is the list of
messages posted so far; `encodes` is a ghost counter of encode calls. -/
structure LoopState where
  width : ℕ
  height : ℕ
  bestOverallImage : String
  bestOverallSize : ℕ
  msgs : List WorkerMsg
  encodes : ℕ
deriving DecidableEq, Repr

/-- The `for (let i = 0; i < maxIterations; i++)` dimension loop; `rounds` is
the number of remaining iterations, `i` the current index.  A round runs the
strict binary search, on a feasible result updates the best and either breaks
(gap ≤ 2) or scales the dimensions up by the gap-dependent factor, on an
infeasible result scales down by ×0.9, and in the non-break cases posts
`Math.round(((i+1)/maxIterations)*100)` as progress.  `untop' 0` extracts the
numeric `fileSize`; it is reached only with `image ≠ ""`, where the size is
finite (`search_image_sound`). -/
def dimLoopAux (blob : BlobOracle) (format : Format) (targetSizeKB : ℕ) :
    ℕ → ℕ → LoopState → LoopState
  | 0, _, s => s
  | rounds + 1, i, s =>
    let res := strictBinarySearchQuality blob format s.width s.height targetSizeKB
    let s1 : LoopState := { s with encodes := s.encodes + res.probes.length }
    let progressMsg : WorkerMsg := progressMsgAt i
    if res.image = "" then
      let d := scaleDimensions s1.width s1.height (9/10)
      dimLoopAux blob format targetSizeKB rounds (i + 1)
        { s1 with width := d.1, height := d.2, msgs := s1.msgs ++ [progressMsg] }
    else
      let fileSize := res.fileSize.untop' 0
      let s2 : LoopState :=
        if fileSize > s1.bestOverallSize then
          { s1 with bestOverallImage := res.image, bestOverallSize := fileSize }
        else s1
      let diff : ℤ := (targetSizeKB : ℤ) - (fileSize : ℤ)
      if diff ≤ 2 then s2
      else
        let d :=
          if diff ≥ 20 then scaleDimensions s2.width s2.height (11/10)
          else if diff ≥ 5 then scaleDimensions s2.width s2.height (21/20)
          else scaleDimensions s2.width s2.height (51/50)
        dimLoopAux blob format targetSizeKB rounds (i + 1)
          { s2 with width := d.1, height := d.2, msgs := s2.msgs ++ [progressMsg] }

/-- Result of the forced-minimal fallback.  `width`/`height` are the session's
dimension variables after the fallback (it mutates them); `encodes` is ghost;
`exhausted` is ghost and true exactly when the `if (!forcedImage)` final
unconditional encode ran. -/
structure FallbackOut where
  forcedImage : String
  forcedSize : ℕ
  width : ℕ
  height : ℕ
  encodes : ℕ
  exhausted : Bool
deriving DecidableEq, Repr

/-- The forced-minimal fallback: `while (attempt < 10)` encode at quality 0,
break on `size ≤ targetSizeKB`, otherwise shrink by ×0.8; if the loop exits
with no feasible image, one final unconditional encode at quality 0 at the
current (once-more-shrunk) dimensions.  `attempts` counts the remaining loop
iterations, starting at 10. -/
def fallbackLoop (blob : BlobOracle) (format : Format) (targetSizeKB : ℕ) :
    ℕ → ℕ → ℕ → FallbackOut
  | 0, w, h =>
    let img := resizeImage blob w h 0 format
    { forcedImage := img, forcedSize := calculateFileSizeKB img,
      width := w, height := h, encodes := 1, exhausted := true }
  | attempts + 1, w, h =>
    let candidate := resizeImage blob w h 0 format
    let size := calculateFileSizeKB candidate
    if size ≤ targetSizeKB then
      { forcedImage := candidate, forcedSize := size,
        width := w, height := h, encodes := 1, exhausted := false }
    else
      let d := scaleDimensions w h (4/5)
      let out := fallbackLoop blob format targetSizeKB attempts d.1 d.2
      { out with encodes := out.encodes + 1 }

/-- Mutable state of the final small-step (nudge) pass. -/
structure NudgeState where
  width : ℕ
  height : ℕ
  bestOverallImage : String
  bestOverallSize : ℕ
  encodes : ℕ
deriving DecidableEq, Repr

/-- The final nudge pass: `while (finalDiff >= 5 && smallStepIteration < 5)`,
scale up ×1.02, re-run the search; adopt a feasible strictly-larger result and
continue; on an infeasible result revert the scale-up (`Math.round(w / 1.02)`)
and break; a feasible but not-larger result just continues.  `fuel` models the
`smallStepIteration < 5` bound. -/
def nudgeLoop (blob : BlobOracle) (format : Format) (targetSizeKB : ℕ) :
    ℕ → NudgeState → NudgeState
  | 0, s => s
  | fuel + 1, s =>
    if (targetSizeKB : ℤ) - (s.bestOverallSize : ℤ) ≥ 5 then
      let d := scaleDimensions s.width s.height (51/50)
      let res := strictBinarySearchQuality blob format d.1 d.2 targetSizeKB
      let s1 : NudgeState :=
        { s with
          width := d.1, height := d.2,
          encodes := s.encodes + res.probes.length }
      if res.image = "" then
        { s1 with
          width := jsRound ((d.1 : ℚ) / (51/50)),
          height := jsRound ((d.2 : ℚ) / (51/50)) }
      else
        let fs := res.fileSize.untop' 0
        if fs > s.bestOverallSize then
          nudgeLoop blob format targetSizeKB fuel
            { s1 with bestOverallImage := res.image, bestOverallSize := fs }
        else
          nudgeLoop blob format targetSizeKB fuel s1
    else s

/-- Terminal observation of one `self.onmessage` session.  `msgs` lists every
posted message, the final `{resizedImage, fileSize, progress: 100}` included.
`encodes`, `usedFallback` and `forcedFinal` are ghost: `forcedFinal` is the
output of the fallback's exhausted-branch unconditional encode when that branch
ran, `none` otherwise. -/
structure SessionOut where
  msgs : List WorkerMsg
  finalImage : String
  finalSize : ℕ
  width : ℕ
  height : ℕ
  encodes : ℕ
  usedFallback : Bool
  forcedFinal : Option String
deriving DecidableEq, Repr

/-- Common tail of a session: the final nudge pass from the given state,
followed by the final `{resizedImage, fileSize, progress: 100}` post.
`usedFb`/`ff` are the ghost fallback observations. -/
def finishSession (blob : BlobOracle) (format : Format) (targetSizeKB : ℕ)
    (wd ht : ℕ) (img : String) (b enc : ℕ) (msgs : List WorkerMsg)
    (usedFb : Bool) (ff : Option String) : SessionOut :=
  let n := nudgeLoop blob format targetSizeKB 5 ⟨wd, ht, img, b, enc⟩
  { msgs := msgs ++
      [⟨some n.bestOverallImage, some n.bestOverallSize, some 100, none⟩],
    finalImage := n.bestOverallImage, finalSize := n.bestOverallSize,
    width := n.width, height := n.height, encodes := n.encodes,
    usedFallback := usedFb, forcedFinal := ff }

/-- One `self.onmessage` session on a successfully decoded bitmap (the bitmap
is absorbed into `blob`): dimension loop from `(maxWidth, maxHeight)`, then the
forced-minimal fallback if no feasible candidate was recorded, then the nudge
pass, then the final post. -/
def session (blob : BlobOracle) (format : Format)
    (targetSizeKB maxWidth maxHeight : ℕ) : SessionOut :=
  let d := dimLoopAux blob format targetSizeKB maxIterations 0
    { width := maxWidth, height := maxHeight, bestOverallImage := "",
      bestOverallSize := 0, msgs := [], encodes := 0 }
  if d.bestOverallImage = "" then
    let fo := fallbackLoop blob format targetSizeKB 10 d.width d.height
    finishSession blob format targetSizeKB fo.width fo.height fo.forcedImage
      fo.forcedSize (d.encodes + fo.encodes) d.msgs true
      (if fo.exhausted then some fo.forcedImage else none)
  else
    finishSession blob format targetSizeKB d.width d.height d.bestOverallImage
      d.bestOverallSize d.encodes d.msgs false none

/-! ## Concrete oracles used for witnesses and counterexamples -/

/-- A 683-character payload: the shortest base64 string whose computed size is 1 KB. -/
def bigStr : String := String.mk (List.replicate 683 'b')

/-- A 100-character payload: computed size 0 KB (a tiny data URL). -/
def smallStr : String := String.mk (List.replicate 100 'c')

/-- Encoder oracle returning the same 683-character payload for every
request (size 1 KB everywhere). -/
def constBlob : BlobOracle := fun _ _ _ _ => bigStr

/-- Encoder oracle whose output is a tiny 0 KB payload at canvas width 11 and
1 KB elsewhere; distinguishes the dimensions of the fallback's final encode. -/
def dimBlob : BlobOracle := fun w _ _ _ => if w = 11 then smallStr else bigStr

/-! ## Helper lemmas -/

theorem calculateFileSizeKB_empty : calculateFileSizeKB "" = 0 := rfl

theorem ne_empty_of_size_pos {c : String} (h : 1 ≤ calculateFileSizeKB c) :
    c ≠ "" := by
  intro rfl_c
  rw [rfl_c, calculateFileSizeKB_empty] at h
  omega

/-- Extending the fuel beyond what the guard allows does not change the loop:
if the quality interval is at most `2^n / 100` wide, `n` units of fuel are
enough, the interval halving every iteration. -/
theorem bsLoop_fuel (blob : BlobOracle) (format : Format) (w h t : ℕ) :
    ∀ (n m : ℕ) (s : BSState), s.high - s.low ≤ 2 ^ n / 100 →
      bsLoop blob format w h t (n + m) s = bsLoop blob format w h t n s := by
  intro n
  induction n with
  | zero =>
    intro m s hs
    have hc : ¬ s.high - s.low > 1 / 100 := by
      push_neg
      calc s.high - s.low ≤ 2 ^ 0 / 100 := hs
        _ = 1 / 100 := by norm_num
    rw [Nat.zero_add]
    match m with
    | 0 => rfl
    | m + 1 =>
      show bsLoop blob format w h t (m + 1) s = s
      simp only [bsLoop, if_neg hc]
  | succ n ih =>
    intro m s hs
    have h2 : (2:ℚ) ^ (n + 1) = 2 * 2 ^ n := by ring
    rw [h2] at hs
    show bsLoop blob format w h t (n + 1 + m) s = bsLoop blob format w h t (n + 1) s
    have hm : n + 1 + m = (n + m) + 1 := by omega
    rw [hm]
    by_cases hgt : s.high - s.low > 1 / 100
    · simp only [bsLoop, if_pos hgt]
      split
      · split
        · exact ih m _ (by
            show s.high - (s.low + s.high) / 2 ≤ 2 ^ n / 100
            linarith)
        · exact ih m _ (by
            show s.high - (s.low + s.high) / 2 ≤ 2 ^ n / 100
            linarith)
      · exact ih m _ (by
          show (s.low + s.high) / 2 - s.low ≤ 2 ^ n / 100
          linarith)
    · simp only [bsLoop, if_neg hgt]

/-- Each loop iteration appends at most one probe. -/
theorem bsLoop_probes_length (blob : BlobOracle) (format : Format) (w h t : ℕ) :
    ∀ (fuel : ℕ) (s : BSState),
      (bsLoop blob format w h t fuel s).probes.length ≤ s.probes.length + fuel := by
  intro fuel
  induction fuel with
  | zero => intro s; simp [bsLoop]
  | succ fuel ih =>
    intro s
    simp only [bsLoop]
    split
    · split
      · split
        · refine le_trans (ih _) ?_
          simp
          omega
        · refine le_trans (ih _) ?_
          simp
          omega
      · refine le_trans (ih _) ?_
        simp
        omega
    · omega

/-- The quality search makes at most 8 encode calls: the loop's guard fails
after 7 halvings of the unit interval, plus at most one final probe. -/
theorem search_probes_length (blob : BlobOracle) (format : Format) (w h t : ℕ) :
    (strictBinarySearchQuality blob format w h t).probes.length ≤ 8 := by
  have hfuel := bsLoop_fuel blob format w h t 7 57
    { low := 0, high := 1, bestUnderLimitImage := "", bestUnderLimitSize := 0,
      probes := [] } (by norm_num)
  have hlen := bsLoop_probes_length blob format w h t 7
    { low := 0, high := 1, bestUnderLimitImage := "", bestUnderLimitSize := 0,
      probes := [] }
  simp only [List.length_nil, Nat.zero_add] at hlen
  simp only [strictBinarySearchQuality, show bsFuel = 7 + 57 from rfl, hfuel]
  split
  · split
    · simp only [List.length_append, List.length_cons, List.length_nil]
      omega
    · simp only [List.length_append, List.length_cons, List.length_nil]
      omega
  · dsimp only
    omega

/-- Invariant of the binary-search loop's recorded best candidate: either
nothing is recorded, or the recorded size is the recorded image's size, is
positive and is within the target. -/
def BSInv (t : ℕ) (s : BSState) : Prop :=
  (s.bestUnderLimitImage = "" ∧ s.bestUnderLimitSize = 0) ∨
    (s.bestUnderLimitImage ≠ "" ∧
      s.bestUnderLimitSize = calculateFileSizeKB s.bestUnderLimitImage ∧
      1 ≤ s.bestUnderLimitSize ∧ s.bestUnderLimitSize ≤ t)

theorem bsLoop_inv (blob : BlobOracle) (format : Format) (w h t : ℕ) :
    ∀ (fuel : ℕ) (s : BSState), BSInv t s →
      BSInv t (bsLoop blob format w h t fuel s) := by
  intro fuel
  induction fuel with
  | zero => intro s hs; simpa [bsLoop] using hs
  | succ fuel ih =>
    intro s hs
    simp only [bsLoop]
    split
    · split
      · next hle =>
        split
        · next hgtbest =>
          apply ih
          right
          exact ⟨ne_empty_of_size_pos (Nat.lt_of_le_of_lt (Nat.zero_le _) hgtbest),
            rfl, Nat.lt_of_le_of_lt (Nat.zero_le _) hgtbest, hle⟩
        · exact ih _ hs
      · exact ih _ hs
    · exact hs

/-- Soundness of the search result: a non-empty image is feasible, and its
reported size is the measured size of the returned image. -/
theorem search_image_sound (blob : BlobOracle) (format : Format) (w h t : ℕ)
    (hne : (strictBinarySearchQuality blob format w h t).image ≠ "") :
    (strictBinarySearchQuality blob format w h t).fileSize =
      (calculateFileSizeKB (strictBinarySearchQuality blob format w h t).image
        : WithTop ℕ) ∧
    calculateFileSizeKB (strictBinarySearchQuality blob format w h t).image ≤ t := by
  have hinv := bsLoop_inv blob format w h t bsFuel
    { low := 0, high := 1, bestUnderLimitImage := "", bestUnderLimitSize := 0,
      probes := [] } (Or.inl ⟨rfl, rfl⟩)
  revert hne
  simp only [strictBinarySearchQuality]
  generalize bsLoop blob format w h t bsFuel
    { low := 0, high := 1, bestUnderLimitImage := "", bestUnderLimitSize := 0,
      probes := [] } = S at hinv ⊢
  split
  · next hempty =>
    split
    · next hfle =>
      intro _
      exact ⟨rfl, hfle⟩
    · intro hne
      exact absurd rfl hne
  · next hnempty =>
    intro _
    rcases hinv with ⟨h1, _⟩ | ⟨_, h2, _, h4⟩
    · exact absurd h1 hnempty
    · exact ⟨by rw [h2], h2 ▸ h4⟩

/-- The numeric size extracted in the worker (`untop' 0`) is within target for
a non-empty search image. -/
theorem search_untop_le (blob : BlobOracle) (format : Format) (w h t : ℕ)
    (hne : (strictBinarySearchQuality blob format w h t).image ≠ "") :
    (strictBinarySearchQuality blob format w h t).fileSize.untop' 0 ≤ t ∧
    (strictBinarySearchQuality blob format w h t).fileSize =
      ((strictBinarySearchQuality blob format w h t).fileSize.untop' 0
        : WithTop ℕ) := by
  obtain ⟨h1, h2⟩ := search_image_sound blob format w h t hne
  rw [h1, WithTop.untop'_coe]
  exact ⟨h2, rfl⟩

/-- Invariant of the dimension refinement loop's best candidate: the best size
never decreases, stays within `max` of its initial value and the target (so a
changed best is within the target), and the best image changes only when the
best size strictly increases. -/
theorem dimLoop_inv (blob : BlobOracle) (format : Format) (t : ℕ) :
    ∀ (r i wd ht : ℕ) (img : String) (b : ℕ) (msgs : List WorkerMsg) (enc : ℕ),
      b ≤ (dimLoopAux blob format t r i ⟨wd, ht, img, b, msgs, enc⟩).bestOverallSize ∧
      (dimLoopAux blob format t r i ⟨wd, ht, img, b, msgs, enc⟩).bestOverallSize ≤ max b t ∧
      ((dimLoopAux blob format t r i ⟨wd, ht, img, b, msgs, enc⟩).bestOverallImage ≠ img →
        b < (dimLoopAux blob format t r i ⟨wd, ht, img, b, msgs, enc⟩).bestOverallSize) := by
  intro r
  induction r with
  | zero =>
    intro i wd ht img b msgs enc
    exact ⟨le_refl _, le_max_left b t, fun h => absurd rfl h⟩
  | succ r ih =>
    intro i wd ht img b msgs enc
    simp only [dimLoopAux]
    by_cases hemp : (strictBinarySearchQuality blob format wd ht t).image = ""
    · rw [if_pos hemp]
      exact ih (i + 1) _ _ img b _ _
    · rw [if_neg hemp]
      obtain ⟨hfle, -⟩ := search_untop_le blob format wd ht t hemp
      by_cases hgt : (strictBinarySearchQuality blob format wd ht t).fileSize.untop' 0 > b
      · by_cases hdiff : (t : ℤ) -
            (((strictBinarySearchQuality blob format wd ht t).fileSize.untop' 0 : ℕ) : ℤ) ≤ 2
        · rw [if_pos hgt, if_pos hdiff]
          exact ⟨le_of_lt hgt, le_trans hfle (le_max_right b t), fun _ => hgt⟩
        · rw [if_pos hgt, if_neg hdiff]
          refine ⟨le_trans (le_of_lt hgt) (ih (i + 1) _ _ _ _ _ _).1,
            le_trans (ih (i + 1) _ _ _ _ _ _).2.1
              (le_trans (le_of_eq (max_eq_right hfle)) (le_max_right b t)),
            fun _ => lt_of_lt_of_le hgt (ih (i + 1) _ _ _ _ _ _).1⟩
      · by_cases hdiff : (t : ℤ) -
            (((strictBinarySearchQuality blob format wd ht t).fileSize.untop' 0 : ℕ) : ℤ) ≤ 2
        · rw [if_neg hgt, if_pos hdiff]
          exact ⟨le_refl _, le_max_left b t, fun h => absurd rfl h⟩
        · rw [if_neg hgt, if_neg hdiff]
          exact ih (i + 1) _ _ img b _ _

/-- Invariant of the final nudge pass, analogous to `dimLoop_inv`. -/
theorem nudge_inv (blob : BlobOracle) (format : Format) (t : ℕ) :
    ∀ (f wd ht : ℕ) (img : String) (b enc : ℕ),
      b ≤ (nudgeLoop blob format t f ⟨wd, ht, img, b, enc⟩).bestOverallSize ∧
      (nudgeLoop blob format t f ⟨wd, ht, img, b, enc⟩).bestOverallSize ≤ max b t ∧
      ((nudgeLoop blob format t f ⟨wd, ht, img, b, enc⟩).bestOverallImage ≠ img →
        b < (nudgeLoop blob format t f ⟨wd, ht, img, b, enc⟩).bestOverallSize) := by
  intro f
  induction f with
  | zero =>
    intro wd ht img b enc
    exact ⟨le_refl _, le_max_left b t, fun h => absurd rfl h⟩
  | succ f ih =>
    intro wd ht img b enc
    simp only [nudgeLoop]
    by_cases hguard : (t : ℤ) - (b : ℤ) ≥ 5
    · rw [if_pos hguard]
      by_cases hemp : (strictBinarySearchQuality blob format
          (scaleDimensions wd ht (51/50)).1 (scaleDimensions wd ht (51/50)).2 t).image = ""
      · rw [if_pos hemp]
        exact ⟨le_refl _, le_max_left b t, fun h => absurd rfl h⟩
      · rw [if_neg hemp]
        obtain ⟨hfle, -⟩ := search_untop_le blob format
          (scaleDimensions wd ht (51/50)).1 (scaleDimensions wd ht (51/50)).2 t hemp
        by_cases hgt : (strictBinarySearchQuality blob format
            (scaleDimensions wd ht (51/50)).1 (scaleDimensions wd ht (51/50)).2
              t).fileSize.untop' 0 > b
        · rw [if_pos hgt]
          refine ⟨le_trans (le_of_lt hgt) (ih _ _ _ _ _).1,
            le_trans (ih _ _ _ _ _).2.1
              (le_trans (le_of_eq (max_eq_right hfle)) (le_max_right b t)),
            fun _ => lt_of_lt_of_le hgt (ih _ _ _ _ _).1⟩
        · rw [if_neg hgt]
          exact ih _ _ img b _
    · rw [if_neg hguard]
      exact ⟨le_refl _, le_max_left b t, fun h => absurd rfl h⟩

/-- A fallback result from a successful attempt (not the exhausted branch) is
within the target. -/
theorem fallback_feasible (blob : BlobOracle) (format : Format) (t : ℕ) :
    ∀ (a w h : ℕ), (fallbackLoop blob format t a w h).exhausted = false →
      (fallbackLoop blob format t a w h).forcedSize ≤ t := by
  intro a
  induction a with
  | zero =>
    intro w h hx
    exact absurd hx (by simp [fallbackLoop])
  | succ a ih =>
    intro w h hx
    revert hx
    simp only [fallbackLoop]
    split
    · next hsz =>
      intro _
      exact hsz
    · intro hx
      exact ih _ _ hx

/-- The fallback makes at most `attempts + 1` encode calls. -/
theorem fallback_encodes (blob : BlobOracle) (format : Format) (t : ℕ) :
    ∀ (a w h : ℕ), (fallbackLoop blob format t a w h).encodes ≤ a + 1 := by
  intro a
  induction a with
  | zero => intro w h; exact le_refl _
  | succ a ih =>
    intro w h
    simp only [fallbackLoop]
    split
    · dsimp only
      omega
    · have := ih (scaleDimensions w h (4/5)).1 (scaleDimensions w h (4/5)).2
      dsimp only
      omega

/-- Each round of the dimension loop makes at most 8 encode calls. -/
theorem dimLoop_encodes (blob : BlobOracle) (format : Format) (t : ℕ) :
    ∀ (r i wd ht : ℕ) (img : String) (b : ℕ) (msgs : List WorkerMsg) (enc : ℕ),
      (dimLoopAux blob format t r i ⟨wd, ht, img, b, msgs, enc⟩).encodes ≤
        enc + 8 * r := by
  intro r
  induction r with
  | zero =>
    intro i wd ht img b msgs enc
    simp only [dimLoopAux]
    omega
  | succ r ih =>
    intro i wd ht img b msgs enc
    have hp := search_probes_length blob format wd ht t
    simp only [dimLoopAux]
    by_cases hemp : (strictBinarySearchQuality blob format wd ht t).image = ""
    · rw [if_pos hemp]
      refine le_trans (ih (i + 1) _ _ _ _ _ _) ?_
      dsimp only
      omega
    · rw [if_neg hemp]
      by_cases hgt : (strictBinarySearchQuality blob format wd ht t).fileSize.untop' 0 > b
      · by_cases hdiff : (t : ℤ) -
            (((strictBinarySearchQuality blob format wd ht t).fileSize.untop' 0 : ℕ) : ℤ) ≤ 2
        · rw [if_pos hgt, if_pos hdiff]
          show enc + (strictBinarySearchQuality blob format wd ht t).probes.length ≤
            enc + 8 * (r + 1)
          omega
        · rw [if_pos hgt, if_neg hdiff]
          refine le_trans (ih (i + 1) _ _ _ _ _ _) ?_
          dsimp only
          omega
      · by_cases hdiff : (t : ℤ) -
            (((strictBinarySearchQuality blob format wd ht t).fileSize.untop' 0 : ℕ) : ℤ) ≤ 2
        · rw [if_neg hgt, if_pos hdiff]
          show enc + (strictBinarySearchQuality blob format wd ht t).probes.length ≤
            enc + 8 * (r + 1)
          omega
        · rw [if_neg hgt, if_neg hdiff]
          refine le_trans (ih (i + 1) _ _ _ _ _ _) ?_
          dsimp only
          omega

/-- Each nudge iteration makes at most 8 encode calls. -/
theorem nudge_encodes (blob : BlobOracle) (format : Format) (t : ℕ) :
    ∀ (f wd ht : ℕ) (img : String) (b enc : ℕ),
      (nudgeLoop blob format t f ⟨wd, ht, img, b, enc⟩).encodes ≤ enc + 8 * f := by
  intro f
  induction f with
  | zero =>
    intro wd ht img b enc
    simp only [nudgeLoop]
    omega
  | succ f ih =>
    intro wd ht img b enc
    have hp := search_probes_length blob format
      (scaleDimensions wd ht (51/50)).1 (scaleDimensions wd ht (51/50)).2 t
    simp only [nudgeLoop]
    by_cases hguard : (t : ℤ) - (b : ℤ) ≥ 5
    · rw [if_pos hguard]
      by_cases hemp : (strictBinarySearchQuality blob format
          (scaleDimensions wd ht (51/50)).1 (scaleDimensions wd ht (51/50)).2 t).image = ""
      · rw [if_pos hemp]
        dsimp only
        omega
      · rw [if_neg hemp]
        by_cases hgt : (strictBinarySearchQuality blob format
            (scaleDimensions wd ht (51/50)).1 (scaleDimensions wd ht (51/50)).2
              t).fileSize.untop' 0 > b
        · rw [if_pos hgt]
          refine le_trans (ih _ _ _ _ _) ?_
          dsimp only
          omega
        · rw [if_neg hgt]
          refine le_trans (ih _ _ _ _ _) ?_
          dsimp only
          omega
    · rw [if_neg hguard]
      dsimp only
      omega

theorem progress_shift (p : ℕ → WorkerMsg) (i k : ℕ) :
    p i :: (List.range k).map (fun j => p (i + 1 + j)) =
      (List.range (k + 1)).map (fun j => p (i + j)) := by
  rw [List.range_succ_eq_map]
  simp only [List.map_cons, List.map_map, Nat.add_zero]
  congr 1
  apply List.map_congr_left
  intro a _
  simp only [Function.comp_apply]
  exact congrArg p (by omega)

/-- The dimension loop posts the progress messages of consecutive round
indices `i, i+1, …` until it breaks or the rounds run out. -/
theorem dimLoop_msgs (blob : BlobOracle) (format : Format) (t : ℕ) :
    ∀ (r i wd ht : ℕ) (img : String) (b : ℕ) (msgs : List WorkerMsg) (enc : ℕ),
      ∃ k, k ≤ r ∧
        (dimLoopAux blob format t r i ⟨wd, ht, img, b, msgs, enc⟩).msgs =
          msgs ++ (List.range k).map (fun j => progressMsgAt (i + j)) := by
  intro r
  induction r with
  | zero =>
    intro i wd ht img b msgs enc
    exact ⟨0, le_refl 0, by simp [dimLoopAux]⟩
  | succ r ih =>
    intro i wd ht img b msgs enc
    simp only [dimLoopAux]
    by_cases hemp : (strictBinarySearchQuality blob format wd ht t).image = ""
    · rw [if_pos hemp]
      obtain ⟨k, hk, hmsgs⟩ := ih (i + 1) (scaleDimensions wd ht (9/10)).1
        (scaleDimensions wd ht (9/10)).2 img b (msgs ++ [progressMsgAt i])
        (enc + (strictBinarySearchQuality blob format wd ht t).probes.length)
      refine ⟨k + 1, by omega, ?_⟩
      rw [hmsgs, List.append_assoc]
      congr 1
      exact progress_shift progressMsgAt i k
    · rw [if_neg hemp]
      by_cases hgt : (strictBinarySearchQuality blob format wd ht t).fileSize.untop' 0 > b
      · by_cases hdiff : (t : ℤ) -
            (((strictBinarySearchQuality blob format wd ht t).fileSize.untop' 0 : ℕ) : ℤ) ≤ 2
        · rw [if_pos hgt, if_pos hdiff]
          exact ⟨0, by omega, by simp⟩
        · rw [if_pos hgt, if_neg hdiff]
          obtain ⟨k, hk, hmsgs⟩ := ih (i + 1) _ _
            ((strictBinarySearchQuality blob format wd ht t).image)
            ((strictBinarySearchQuality blob format wd ht t).fileSize.untop' 0)
            (msgs ++ [progressMsgAt i])
            (enc + (strictBinarySearchQuality blob format wd ht t).probes.length)
          refine ⟨k + 1, by omega, ?_⟩
          rw [hmsgs, List.append_assoc]
          congr 1
          exact progress_shift progressMsgAt i k
      · by_cases hdiff : (t : ℤ) -
            (((strictBinarySearchQuality blob format wd ht t).fileSize.untop' 0 : ℕ) : ℤ) ≤ 2
        · rw [if_neg hgt, if_pos hdiff]
          exact ⟨0, by omega, by simp⟩
        · rw [if_neg hgt, if_neg hdiff]
          obtain ⟨k, hk, hmsgs⟩ := ih (i + 1) _ _ img b (msgs ++ [progressMsgAt i])
            (enc + (strictBinarySearchQuality blob format wd ht t).probes.length)
          refine ⟨k + 1, by omega, ?_⟩
          rw [hmsgs, List.append_assoc]
          congr 1
          exact progress_shift progressMsgAt i k

/-- Every session's message list is the progress messages of rounds
`0, …, k-1` for some `k ≤ 12`, followed by exactly one final message carrying
the terminal image and size with progress 100. -/
theorem session_msgs (blob : BlobOracle) (format : Format) (t mw mh : ℕ) :
    ∃ k, k ≤ maxIterations ∧
      (session blob format t mw mh).msgs =
        (List.range k).map progressMsgAt ++
          [⟨some (session blob format t mw mh).finalImage,
            some (session blob format t mw mh).finalSize, some 100, none⟩] := by
  obtain ⟨k, hk, hmsgs⟩ := dimLoop_msgs blob format t maxIterations 0 mw mh "" 0 [] 0
  have hzero : ((List.range k).map (fun j => progressMsgAt (0 + j))) =
      (List.range k).map progressMsgAt := by
    apply List.map_congr_left
    intro a _
    exact congrArg progressMsgAt (by omega)
  rw [hzero] at hmsgs
  simp only [List.nil_append] at hmsgs
  refine ⟨k, hk, ?_⟩
  simp only [session, finishSession]
  split
  · rw [hmsgs]
  · rw [hmsgs]

/-! ## Fallback characterization (C6) -/

/-- One dimension shrink of the fallback loop: ×0.80 on both dimensions. -/
def shrinkStep (p : ℕ × ℕ) : ℕ × ℕ :=
  scaleDimensions p.1 p.2 (4/5)

/-- If every one of the first `a` attempts is infeasible, the fallback runs
all of them and finishes with the unconditional encode at the `a`-times-shrunk
dimensions. -/
theorem fallback_exhausted_char (blob : BlobOracle) (format : Format) (t : ℕ) :
    ∀ (a w h : ℕ),
      (∀ k < a, ¬ calculateFileSizeKB (resizeImage blob (shrinkStep^[k] (w, h)).1
          (shrinkStep^[k] (w, h)).2 0 format) ≤ t) →
      fallbackLoop blob format t a w h =
        { forcedImage := resizeImage blob (shrinkStep^[a] (w, h)).1
            (shrinkStep^[a] (w, h)).2 0 format,
          forcedSize := calculateFileSizeKB (resizeImage blob (shrinkStep^[a] (w, h)).1
            (shrinkStep^[a] (w, h)).2 0 format),
          width := (shrinkStep^[a] (w, h)).1, height := (shrinkStep^[a] (w, h)).2,
          encodes := a + 1, exhausted := true } := by
  intro a
  induction a with
  | zero =>
    intro w h _
    rfl
  | succ a ih =>
    intro w h hall
    have h0 : ¬ calculateFileSizeKB (resizeImage blob w h 0 format) ≤ t :=
      hall 0 (by omega)
    simp only [fallbackLoop]
    rw [if_neg h0]
    have hshift : ∀ k < a, ¬ calculateFileSizeKB (resizeImage blob
        (shrinkStep^[k] (shrinkStep (w, h))).1
        (shrinkStep^[k] (shrinkStep (w, h))).2 0 format) ≤ t := by
      intro k hk
      have := hall (k + 1) (by omega)
      rwa [Function.iterate_succ_apply] at this
    have := ih (shrinkStep (w, h)).1 (shrinkStep (w, h)).2 hshift
    rw [show ((shrinkStep (w, h)).1, (shrinkStep (w, h)).2) = shrinkStep (w, h) from rfl]
      at this
    rw [show scaleDimensions w h (4/5) = shrinkStep (w, h) from rfl]
    rw [this]
    simp only [← Function.iterate_succ_apply]

/-- If attempt `k` (zero-based) is the first feasible one within the budget,
the fallback accepts it and stops there, with `k + 1` encode calls. -/
theorem fallback_feasible_char (blob : BlobOracle) (format : Format) (t : ℕ) :
    ∀ (k : ℕ), ∀ (a w h : ℕ), k < a →
      (∀ j < k, ¬ calculateFileSizeKB (resizeImage blob (shrinkStep^[j] (w, h)).1
          (shrinkStep^[j] (w, h)).2 0 format) ≤ t) →
      calculateFileSizeKB (resizeImage blob (shrinkStep^[k] (w, h)).1
        (shrinkStep^[k] (w, h)).2 0 format) ≤ t →
      fallbackLoop blob format t a w h =
        { forcedImage := resizeImage blob (shrinkStep^[k] (w, h)).1
            (shrinkStep^[k] (w, h)).2 0 format,
          forcedSize := calculateFileSizeKB (resizeImage blob (shrinkStep^[k] (w, h)).1
            (shrinkStep^[k] (w, h)).2 0 format),
          width := (shrinkStep^[k] (w, h)).1, height := (shrinkStep^[k] (w, h)).2,
          encodes := k + 1, exhausted := false } := by
  intro k
  induction k with
  | zero =>
    intro a w h hka _ hfeas
    match a with
    | a + 1 =>
      simp only [Function.iterate_zero_apply] at hfeas
      simp only [fallbackLoop]
      rw [if_pos hfeas]
      rfl
  | succ k ih =>
    intro a w h hka hprev hfeas
    match a with
    | a + 1 =>
      have h0 : ¬ calculateFileSizeKB (resizeImage blob w h 0 format) ≤ t :=
        hprev 0 (by omega)
      simp only [fallbackLoop]
      rw [if_neg h0]
      have hshift : ∀ j < k, ¬ calculateFileSizeKB (resizeImage blob
          (shrinkStep^[j] (shrinkStep (w, h))).1
          (shrinkStep^[j] (shrinkStep (w, h))).2 0 format) ≤ t := by
        intro j hj
        have := hprev (j + 1) (by omega)
        rwa [Function.iterate_succ_apply] at this
      have hfeas' : calculateFileSizeKB (resizeImage blob
          (shrinkStep^[k] (shrinkStep (w, h))).1
          (shrinkStep^[k] (shrinkStep (w, h))).2 0 format) ≤ t := by
        rwa [Function.iterate_succ_apply] at hfeas
      have := ih a (shrinkStep (w, h)).1 (shrinkStep (w, h)).2 (by omega) hshift hfeas'
      rw [show ((shrinkStep (w, h)).1, (shrinkStep (w, h)).2) = shrinkStep (w, h) from rfl]
        at this
      rw [show scaleDimensions w h (4/5) = shrinkStep (w, h) from rfl]
      rw [this]
      simp only [← Function.iterate_succ_apply]

/-- Modelled from the claim's words (C6): the same attempt loop as
`fallbackLoop`, except that when the budget is exhausted the final encode is
performed at the dimensions of the last failed attempt (no further ×0.80
shrink before it).  Used only to compare the claim's description with the
code. -/
def fallbackLastTried (blob : BlobOracle) (format : Format) (targetSizeKB : ℕ) :
    ℕ → ℕ → ℕ → String × ℕ
  | 0, w, h =>
    let img := resizeImage blob w h 0 format
    (img, calculateFileSizeKB img)
  | attempts + 1, w, h =>
    let candidate := resizeImage blob w h 0 format
    let size := calculateFileSizeKB candidate
    if size ≤ targetSizeKB then (candidate, size)
    else if attempts = 0 then (candidate, size)
    else
      fallbackLastTried blob format targetSizeKB attempts
        (scaleDimensions w h (4/5)).1 (scaleDimensions w h (4/5)).2

set_option maxRecDepth 40000

/-! ## Claims -/

/-- C10: for every call to `resizeImage` with format `"png"`, the encoder is
invoked with MIME type `"image/webp"` and quality fixed at 1.0 regardless of
the quality argument, so the quality parameter has no effect for it; only
format `"jpeg"` passes the given quality through with type `"image/jpeg"`. -/
theorem c10_png_encodes_webp (blob : BlobOracle) (w h : ℕ) (q q' : ℚ) :
    resizeImage blob w h q .png = blob w h "image/webp" 1 ∧
    resizeImage blob w h q .png = resizeImage blob w h q' .png ∧
    resizeImage blob w h q .jpeg = blob w h "image/jpeg" q :=
  ⟨rfl, rfl, rfl⟩

unseal Rat.add Rat.sub Rat.mul Rat.inv in
/-- C3 counterexample: with the constant 1 KB oracle and target 0, a session
makes 107 encode calls — more than the claimed bound of 99.  Each of the 12
infeasible rounds costs 8 encodes (7 loop probes plus the final low probe) and
the exhausted fallback costs 11 more. -/
theorem c3_counterexample :
    (session constBlob .jpeg 0 100 100).encodes = 107 ∧
    ¬ (session constBlob .jpeg 0 100 100).encodes ≤ 99 := by
  have h : (session constBlob .jpeg 0 100 100).encodes = 107 := by decide
  exact ⟨h, by omega⟩

/-- C3 amended: the total number of encode calls in a session is at most 147:
12 rounds × 8 encodes + 11 fallback encodes + 5 nudge iterations × 8
encodes. -/
theorem c3_amended_encode_bound (blob : BlobOracle) (format : Format)
    (t mw mh : ℕ) : (session blob format t mw mh).encodes ≤ 147 := by
  have hd : (dimLoopAux blob format t maxIterations 0
      ⟨mw, mh, "", 0, [], 0⟩).encodes ≤ 96 :=
    le_trans (dimLoop_encodes blob format t maxIterations 0 mw mh "" 0 [] 0)
      (by norm_num [maxIterations])
  simp only [session, finishSession]
  split
  · refine le_trans (nudge_encodes blob format t 5 _ _ _ _ _) ?_
    have hf := fallback_encodes blob format t 10
      (dimLoopAux blob format t maxIterations 0 ⟨mw, mh, "", 0, [], 0⟩).width
      (dimLoopAux blob format t maxIterations 0 ⟨mw, mh, "", 0, [], 0⟩).height
    omega
  · refine le_trans (nudge_encodes blob format t 5 _ _ _ _ _) ?_
    omega

unseal Rat.add Rat.sub Rat.mul Rat.inv in
/-- C5 counterexample: the terminal message of a session whose forced-minimal
fallback exhausted its budget with an over-budget result (target 0, final size
1) is identical to the terminal message of a genuinely successful session
(target 1) — the output carries no flag distinguishing best-effort from true
success. -/
theorem c5_counterexample :
    (session constBlob .jpeg 0 100 100).msgs.getLast? =
      (session constBlob .jpeg 1 100 100).msgs.getLast? ∧
    (session constBlob .jpeg 0 100 100).forcedFinal =
      some (session constBlob .jpeg 0 100 100).finalImage ∧
    0 < (session constBlob .jpeg 0 100 100).finalSize ∧
    (session constBlob .jpeg 1 100 100).finalSize ≤ 1 := by
  decide

/-- C5 amended: the terminal output is distinguishable from an error (it
carries the image, the size and progress 100, and no session message carries
an error), but there is no explicit best-effort flag: over-budget outcomes are
recognisable only by comparing `fileSize` with the target. -/
theorem c5_amended_no_flag (blob : BlobOracle) (format : Format) (t mw mh : ℕ) :
    (session blob format t mw mh).msgs.getLast? =
      some ⟨some (session blob format t mw mh).finalImage,
        some (session blob format t mw mh).finalSize, some 100, none⟩ ∧
    ∀ m ∈ (session blob format t mw mh).msgs, m.error = none := by
  obtain ⟨k, hk, hmsgs⟩ := session_msgs blob format t mw mh
  constructor
  · rw [hmsgs]
    exact List.getLast?_concat _
  · intro m hm
    rw [hmsgs] at hm
    rcases List.mem_append.1 hm with hm | hm
    · obtain ⟨j, -, rfl⟩ := List.mem_map.1 hm
      rfl
    · rw [List.mem_singleton] at hm
      subst hm
      rfl

unseal Rat.add Rat.sub Rat.mul Rat.inv in
/-- C6 counterexample: with the oracle that is 0 KB at width 11 and 1 KB
elsewhere and target 0, the fallback's ten attempts run at widths
100, 80, …, 17, 14 and all fail; the code then performs the unconditional
final encode at width 11 (the once-more-shrunk dimensions), yielding size 0,
whereas the claim's description (final encode at the last failed attempt's
dimensions, width 14) yields size 1. -/
theorem c6_counterexample :
    (fallbackLoop dimBlob .jpeg 0 10 100 100).width = 11 ∧
    (fallbackLoop dimBlob .jpeg 0 10 100 100).forcedSize = 0 ∧
    (fallbackLastTried dimBlob .jpeg 0 10 100 100).2 = 1 := by
  decide

/-- C6 amended: each of the up-to-10 fallback attempts encodes at quality 0.0
at the current dimensions, accepting and stopping at the first feasible one;
when every attempt is infeasible, the final unconditional quality-0 encode is
performed at the dimensions obtained by one further ×0.80 shrink after the
last failed attempt (the 10-times-shrunk dimensions), not at the last
attempt's own dimensions. -/
theorem c6_amended_fallback (blob : BlobOracle) (format : Format) (t w h : ℕ) :
    ((∀ k < 10, ¬ calculateFileSizeKB (resizeImage blob (shrinkStep^[k] (w, h)).1
        (shrinkStep^[k] (w, h)).2 0 format) ≤ t) →
      fallbackLoop blob format t 10 w h =
        { forcedImage := resizeImage blob (shrinkStep^[10] (w, h)).1
            (shrinkStep^[10] (w, h)).2 0 format,
          forcedSize := calculateFileSizeKB (resizeImage blob
            (shrinkStep^[10] (w, h)).1 (shrinkStep^[10] (w, h)).2 0 format),
          width := (shrinkStep^[10] (w, h)).1, height := (shrinkStep^[10] (w, h)).2,
          encodes := 11, exhausted := true }) ∧
    (∀ k < 10,
      (∀ j < k, ¬ calculateFileSizeKB (resizeImage blob (shrinkStep^[j] (w, h)).1
          (shrinkStep^[j] (w, h)).2 0 format) ≤ t) →
      calculateFileSizeKB (resizeImage blob (shrinkStep^[k] (w, h)).1
        (shrinkStep^[k] (w, h)).2 0 format) ≤ t →
      fallbackLoop blob format t 10 w h =
        { forcedImage := resizeImage blob (shrinkStep^[k] (w, h)).1
            (shrinkStep^[k] (w, h)).2 0 format,
          forcedSize := calculateFileSizeKB (resizeImage blob
            (shrinkStep^[k] (w, h)).1 (shrinkStep^[k] (w, h)).2 0 format),
          width := (shrinkStep^[k] (w, h)).1, height := (shrinkStep^[k] (w, h)).2,
          encodes := k + 1, exhausted := false }) :=
  ⟨fallback_exhausted_char blob format t 10 w h,
    fun k hk => fallback_feasible_char blob format t k 10 w h hk⟩

unseal Rat.add Rat.sub Rat.mul Rat.inv in
/-- Witness for C6 amended: the exhausted characterization at the constant
1 KB oracle with target 0, and the first-attempt-feasible characterization at
the same oracle with target 1. -/
theorem c6_amended_fallback_witness :
    fallbackLoop constBlob .jpeg 0 10 100 100 =
      { forcedImage := resizeImage constBlob (shrinkStep^[10] (100, 100)).1
          (shrinkStep^[10] (100, 100)).2 0 .jpeg,
        forcedSize := calculateFileSizeKB (resizeImage constBlob
          (shrinkStep^[10] (100, 100)).1 (shrinkStep^[10] (100, 100)).2 0 .jpeg),
        width := (shrinkStep^[10] (100, 100)).1, height := (shrinkStep^[10] (100, 100)).2,
        encodes := 11, exhausted := true } ∧
    fallbackLoop constBlob .jpeg 1 10 100 100 =
      { forcedImage := resizeImage constBlob (shrinkStep^[0] (100, 100)).1
          (shrinkStep^[0] (100, 100)).2 0 .jpeg,
        forcedSize := calculateFileSizeKB (resizeImage constBlob
          (shrinkStep^[0] (100, 100)).1 (shrinkStep^[0] (100, 100)).2 0 .jpeg),
        width := (shrinkStep^[0] (100, 100)).1, height := (shrinkStep^[0] (100, 100)).2,
        encodes := 1, exhausted := false } :=
  ⟨(c6_amended_fallback constBlob .jpeg 0 100 100).1 (by decide),
    (c6_amended_fallback constBlob .jpeg 1 100 100).2 0 (by omega)
      (fun j hj => absurd hj (Nat.not_lt_zero j)) (by decide)⟩

/-- With a non-empty-output encoder, an empty search image implies the
explicit `Infinity` infeasibility signal. -/
theorem search_empty_top (blob : BlobOracle) (format : Format) (w h t : ℕ)
    (henc : ∀ (wd ht : ℕ) (q : ℚ), resizeImage blob wd ht q format ≠ "") :
    (strictBinarySearchQuality blob format w h t).image = "" →
    (strictBinarySearchQuality blob format w h t).fileSize = ⊤ := by
  simp only [strictBinarySearchQuality]
  generalize bsLoop blob format w h t bsFuel
    { low := 0, high := 1, bestUnderLimitImage := "", bestUnderLimitSize := 0,
      probes := [] } = S
  split
  · split
    · intro hne
      exact absurd hne (henc w h S.low)
    · intro _
      rfl
  · next hSne =>
    intro hcontra
    exact absurd hcontra hSne

/-- C1: if the final posted size of a session exceeds the target, the session
used the forced-minimal fallback and the result is its exhausted-branch
unconditional encode; contrapositively, whenever a feasible candidate was ever
recorded (dimension loop, fallback attempt, or nudge pass), the final result
satisfies `fileSize ≤ targetSizeKB`. -/
theorem c1_over_budget_only_exhausted (blob : BlobOracle) (format : Format)
    (t mw mh : ℕ)
    (hover : t < (session blob format t mw mh).finalSize) :
    (session blob format t mw mh).usedFallback = true ∧
    (session blob format t mw mh).forcedFinal =
      some ((session blob format t mw mh).finalImage) := by
  revert hover
  simp only [session, finishSession]
  split
  · next hd =>
    intro hover
    dsimp only at hover ⊢
    refine ⟨rfl, ?_⟩
    have hnud := nudge_inv blob format t 5
      (fallbackLoop blob format t 10
        (dimLoopAux blob format t maxIterations 0 ⟨mw, mh, "", 0, [], 0⟩).width
        (dimLoopAux blob format t maxIterations 0 ⟨mw, mh, "", 0, [], 0⟩).height).width
      (fallbackLoop blob format t 10
        (dimLoopAux blob format t maxIterations 0 ⟨mw, mh, "", 0, [], 0⟩).width
        (dimLoopAux blob format t maxIterations 0 ⟨mw, mh, "", 0, [], 0⟩).height).height
      (fallbackLoop blob format t 10
        (dimLoopAux blob format t maxIterations 0 ⟨mw, mh, "", 0, [], 0⟩).width
        (dimLoopAux blob format t maxIterations 0 ⟨mw, mh, "", 0, [], 0⟩).height).forcedImage
      (fallbackLoop blob format t 10
        (dimLoopAux blob format t maxIterations 0 ⟨mw, mh, "", 0, [], 0⟩).width
        (dimLoopAux blob format t maxIterations 0 ⟨mw, mh, "", 0, [], 0⟩).height).forcedSize
      ((dimLoopAux blob format t maxIterations 0 ⟨mw, mh, "", 0, [], 0⟩).encodes +
        (fallbackLoop blob format t 10
          (dimLoopAux blob format t maxIterations 0 ⟨mw, mh, "", 0, [], 0⟩).width
          (dimLoopAux blob format t maxIterations 0 ⟨mw, mh, "", 0, [], 0⟩).height).encodes)
    obtain ⟨hmono, hmax, himgchg⟩ := hnud
    have hfs_gt : t < (fallbackLoop blob format t 10
        (dimLoopAux blob format t maxIterations 0 ⟨mw, mh, "", 0, [], 0⟩).width
        (dimLoopAux blob format t maxIterations 0 ⟨mw, mh, "", 0, [], 0⟩).height).forcedSize := by
      by_contra hle
      push_neg at hle
      rw [max_eq_right hle] at hmax
      omega
    have hex : (fallbackLoop blob format t 10
        (dimLoopAux blob format t maxIterations 0 ⟨mw, mh, "", 0, [], 0⟩).width
        (dimLoopAux blob format t maxIterations 0 ⟨mw, mh, "", 0, [], 0⟩).height).exhausted
          = true := by
      by_contra hfx
      rw [Bool.not_eq_true] at hfx
      have := fallback_feasible blob format t 10
        (dimLoopAux blob format t maxIterations 0 ⟨mw, mh, "", 0, [], 0⟩).width
        (dimLoopAux blob format t maxIterations 0 ⟨mw, mh, "", 0, [], 0⟩).height hfx
      omega
    rw [if_pos hex]
    have himg_same : (nudgeLoop blob format t 5
        ⟨(fallbackLoop blob format t 10
            (dimLoopAux blob format t maxIterations 0 ⟨mw, mh, "", 0, [], 0⟩).width
            (dimLoopAux blob format t maxIterations 0 ⟨mw, mh, "", 0, [], 0⟩).height).width,
          (fallbackLoop blob format t 10
            (dimLoopAux blob format t maxIterations 0 ⟨mw, mh, "", 0, [], 0⟩).width
            (dimLoopAux blob format t maxIterations 0 ⟨mw, mh, "", 0, [], 0⟩).height).height,
          (fallbackLoop blob format t 10
            (dimLoopAux blob format t maxIterations 0 ⟨mw, mh, "", 0, [], 0⟩).width
            (dimLoopAux blob format t maxIterations 0 ⟨mw, mh, "", 0, [], 0⟩).height).forcedImage,
          (fallbackLoop blob format t 10
            (dimLoopAux blob format t maxIterations 0 ⟨mw, mh, "", 0, [], 0⟩).width
            (dimLoopAux blob format t maxIterations 0 ⟨mw, mh, "", 0, [], 0⟩).height).forcedSize,
          (dimLoopAux blob format t maxIterations 0 ⟨mw, mh, "", 0, [], 0⟩).encodes +
            (fallbackLoop blob format t 10
              (dimLoopAux blob format t maxIterations 0 ⟨mw, mh, "", 0, [], 0⟩).width
              (dimLoopAux blob format t maxIterations 0
                ⟨mw, mh, "", 0, [], 0⟩).height).encodes⟩).bestOverallImage =
        (fallbackLoop blob format t 10
          (dimLoopAux blob format t maxIterations 0 ⟨mw, mh, "", 0, [], 0⟩).width
          (dimLoopAux blob format t maxIterations 0
            ⟨mw, mh, "", 0, [], 0⟩).height).forcedImage := by
      by_contra hne
      have := himgchg hne
      have hb := max_eq_left (le_of_lt hfs_gt)
      rw [hb] at hmax
      omega
    rw [himg_same]
  · next hd =>
    intro hover
    dsimp only at hover
    push_neg at hd
    have hdim := dimLoop_inv blob format t maxIterations 0 mw mh "" 0 [] 0
    have hdle : (dimLoopAux blob format t maxIterations 0
        ⟨mw, mh, "", 0, [], 0⟩).bestOverallSize ≤ t := by
      have := hdim.2.1
      omega
    have hnud := nudge_inv blob format t 5
      (dimLoopAux blob format t maxIterations 0 ⟨mw, mh, "", 0, [], 0⟩).width
      (dimLoopAux blob format t maxIterations 0 ⟨mw, mh, "", 0, [], 0⟩).height
      (dimLoopAux blob format t maxIterations 0 ⟨mw, mh, "", 0, [], 0⟩).bestOverallImage
      (dimLoopAux blob format t maxIterations 0 ⟨mw, mh, "", 0, [], 0⟩).bestOverallSize
      (dimLoopAux blob format t maxIterations 0 ⟨mw, mh, "", 0, [], 0⟩).encodes
    rw [max_eq_right hdle] at hnud
    omega

unseal Rat.add Rat.sub Rat.mul Rat.inv in
/-- Witness for C1 at the constant 1 KB oracle with target 0: the session ends
over budget (size 1 > 0) and indeed reports the exhausted fallback's output. -/
theorem c1_over_budget_only_exhausted_witness :
    (session constBlob .jpeg 0 100 100).usedFallback = true ∧
    (session constBlob .jpeg 0 100 100).forcedFinal =
      some ((session constBlob .jpeg 0 100 100).finalImage) :=
  c1_over_budget_only_exhausted constBlob .jpeg 0 100 100 (by decide)

/-- C2: the quality search either returns a non-empty image whose measured
size is within the target (and reports exactly that size), or the explicit
infeasibility signal `("", Infinity)` — never a non-empty over-budget image;
and when the loop records no feasible candidate, the result is one last encode
at the final `low`, accepted only if its size is within the target.
The hypothesis models that the real encoder always produces a non-empty data
URL. -/
theorem c2_search_dichotomy (blob : BlobOracle) (format : Format) (w h t : ℕ)
    (henc : ∀ (wd ht : ℕ) (q : ℚ), resizeImage blob wd ht q format ≠ "") :
    (((strictBinarySearchQuality blob format w h t).image ≠ "" ∧
      (strictBinarySearchQuality blob format w h t).fileSize =
        (calculateFileSizeKB (strictBinarySearchQuality blob format w h t).image
          : WithTop ℕ) ∧
      calculateFileSizeKB (strictBinarySearchQuality blob format w h t).image ≤ t) ∨
     ((strictBinarySearchQuality blob format w h t).image = "" ∧
      (strictBinarySearchQuality blob format w h t).fileSize = ⊤)) ∧
    ((bsLoop blob format w h t bsFuel ⟨0, 1, "", 0, []⟩).bestUnderLimitImage = "" →
      strictBinarySearchQuality blob format w h t =
        (if calculateFileSizeKB (resizeImage blob w h
            (bsLoop blob format w h t bsFuel ⟨0, 1, "", 0, []⟩).low format) ≤ t then
          { image := resizeImage blob w h
              (bsLoop blob format w h t bsFuel ⟨0, 1, "", 0, []⟩).low format,
            fileSize := (calculateFileSizeKB (resizeImage blob w h
              (bsLoop blob format w h t bsFuel ⟨0, 1, "", 0, []⟩).low format)
                : WithTop ℕ),
            probes := (bsLoop blob format w h t bsFuel ⟨0, 1, "", 0, []⟩).probes ++
              [((bsLoop blob format w h t bsFuel ⟨0, 1, "", 0, []⟩).low,
                calculateFileSizeKB (resizeImage blob w h
                  (bsLoop blob format w h t bsFuel ⟨0, 1, "", 0, []⟩).low format))] }
        else
          { image := "", fileSize := ⊤,
            probes := (bsLoop blob format w h t bsFuel ⟨0, 1, "", 0, []⟩).probes ++
              [((bsLoop blob format w h t bsFuel ⟨0, 1, "", 0, []⟩).low,
                calculateFileSizeKB (resizeImage blob w h
                  (bsLoop blob format w h t bsFuel
                    ⟨0, 1, "", 0, []⟩).low format))] })) := by
  constructor
  · by_cases hne : (strictBinarySearchQuality blob format w h t).image = ""
    · exact Or.inr ⟨hne, search_empty_top blob format w h t henc hne⟩
    · obtain ⟨h1, h2⟩ := search_image_sound blob format w h t hne
      exact Or.inl ⟨hne, h1, h2⟩
  · intro hempty
    simp only [strictBinarySearchQuality]
    rw [if_pos hempty]

unseal Rat.add Rat.sub Rat.mul Rat.inv in
/-- Witness for C2 at the constant 1 KB oracle with target 0 (the search is
totally infeasible there, producing the explicit signal). -/
theorem c2_search_dichotomy_witness :
    ((strictBinarySearchQuality constBlob .jpeg 5 5 0).image ≠ "" ∧
      (strictBinarySearchQuality constBlob .jpeg 5 5 0).fileSize =
        (calculateFileSizeKB (strictBinarySearchQuality constBlob .jpeg 5 5 0).image
          : WithTop ℕ) ∧
      calculateFileSizeKB (strictBinarySearchQuality constBlob .jpeg 5 5 0).image ≤ 0) ∨
    ((strictBinarySearchQuality constBlob .jpeg 5 5 0).image = "" ∧
      (strictBinarySearchQuality constBlob .jpeg 5 5 0).fileSize = ⊤) :=
  (c2_search_dichotomy constBlob .jpeg 5 5 0 (fun _ _ _ => by
    show bigStr ≠ ""
    decide)).1

/-- Trace invariant of the binary-search loop: starting from an interval with
`low < high` and a trace whose feasible probes all have quality ≤ `low` and
strictly increasing qualities, the loop preserves all three — every feasible
probe is made at a strictly higher quality than all earlier feasible probes. -/
theorem bsLoop_trace (blob : BlobOracle) (format : Format) (w h t : ℕ) :
    ∀ (fuel : ℕ) (s : BSState), s.low < s.high →
      (∀ p ∈ s.probes, p.2 ≤ t → p.1 ≤ s.low) →
      List.Chain' (· < ·) ((s.probes.filter (fun p => decide (p.2 ≤ t))).map Prod.fst) →
      List.Chain' (· < ·) (((bsLoop blob format w h t fuel s).probes.filter
        (fun p => decide (p.2 ≤ t))).map Prod.fst) := by
  intro fuel
  induction fuel with
  | zero =>
    intro s _ _ hchain
    simpa [bsLoop] using hchain
  | succ fuel ih =>
    intro s hlt hle hchain
    simp only [bsLoop]
    by_cases hguard : s.high - s.low > 1/100
    · rw [if_pos hguard]
      have hmidlo : s.low < (s.low + s.high) / 2 := by linarith
      have hmidhi : (s.low + s.high) / 2 < s.high := by linarith
      by_cases hfeas :
          calculateFileSizeKB (resizeImage blob w h ((s.low + s.high) / 2) format) ≤ t
      · rw [if_pos hfeas]
        have hprobes : ∀ p ∈ s.probes ++ [((s.low + s.high) / 2,
            calculateFileSizeKB (resizeImage blob w h ((s.low + s.high) / 2) format))],
            p.2 ≤ t → p.1 ≤ (s.low + s.high) / 2 := by
          intro p hp hpt
          rcases List.mem_append.1 hp with hp | hp
          · exact le_trans (hle p hp hpt) (le_of_lt hmidlo)
          · rw [List.mem_singleton] at hp
            subst hp
            exact le_refl _
        have hsingle : ([((s.low + s.high) / 2,
            calculateFileSizeKB (resizeImage blob w h ((s.low + s.high) / 2) format))].filter
              (fun p => decide (p.2 ≤ t))) =
            [((s.low + s.high) / 2,
              calculateFileSizeKB (resizeImage blob w h ((s.low + s.high) / 2) format))] := by
          simp [hfeas]
        have hchain' : List.Chain' (· < ·) (((s.probes ++ [((s.low + s.high) / 2,
            calculateFileSizeKB (resizeImage blob w h ((s.low + s.high) / 2) format))]).filter
              (fun p => decide (p.2 ≤ t))).map Prod.fst) := by
          rw [List.filter_append, hsingle, List.map_append, List.chain'_append]
          refine ⟨hchain, List.chain'_singleton _, ?_⟩
          intro x hx y hy
          simp only [List.map_cons, List.map_nil, List.head?_cons, Option.mem_def,
            Option.some.injEq] at hy
          subst hy
          have hxmem := List.mem_of_mem_getLast? hx
          obtain ⟨p, hpmem, rfl⟩ := List.mem_map.1 hxmem
          obtain ⟨hpin, hpfeas⟩ := List.mem_filter.1 hpmem
          exact lt_of_le_of_lt (hle p hpin (of_decide_eq_true hpfeas)) hmidlo
        split
        · exact ih _ hmidhi hprobes hchain'
        · exact ih _ hmidhi hprobes hchain'
      · rw [if_neg hfeas]
        apply ih
        · exact hmidlo
        · intro p hp hpt
          rcases List.mem_append.1 hp with hp | hp
          · exact hle p hp hpt
          · rw [List.mem_singleton] at hp
            subst hp
            exact absurd hpt hfeas
        · rw [List.filter_append]
          have hdrop : ([((s.low + s.high) / 2,
              calculateFileSizeKB (resizeImage blob w h ((s.low + s.high) / 2) format))].filter
                (fun p => decide (p.2 ≤ t))) = [] := by
            simp [hfeas]
          rw [hdrop, List.append_nil]
          exact hchain
    · rw [if_neg hguard]
      exact hchain

/-- C9: within one quality binary search, a feasible probe whose size equals
the recorded best does not replace it (`>` governs replacement, so ties keep
the earlier, lower-quality candidate), and the loop's feasible probes occur at
strictly increasing quality values. -/
theorem c9_tie_keeps_earlier (blob : BlobOracle) (format : Format)
    (w h t fuel : ℕ) (s : BSState)
    (hguard : s.high - s.low > 1/100)
    (hfeas : calculateFileSizeKB (resizeImage blob w h ((s.low + s.high) / 2) format) ≤ t)
    (hnle : calculateFileSizeKB (resizeImage blob w h ((s.low + s.high) / 2) format) ≤
      s.bestUnderLimitSize) :
    bsLoop blob format w h t (fuel + 1) s =
      bsLoop blob format w h t fuel
        { s with
          low := (s.low + s.high) / 2,
          probes := s.probes ++ [((s.low + s.high) / 2,
            calculateFileSizeKB (resizeImage blob w h ((s.low + s.high) / 2) format))] } ∧
    List.Chain' (· < ·) (((bsLoop blob format w h t fuel
      ⟨0, 1, "", 0, []⟩).probes.filter (fun p => decide (p.2 ≤ t))).map Prod.fst) := by
  constructor
  · simp only [bsLoop]
    rw [if_pos hguard, if_pos hfeas, if_neg (not_lt.mpr hnle)]
  · exact bsLoop_trace blob format w h t fuel ⟨0, 1, "", 0, []⟩ (by norm_num)
      (fun p hp => absurd hp (List.not_mem_nil p)) (by simp)

unseal Rat.add Rat.sub Rat.mul Rat.inv in
/-- Witness for C9: a feasible probe of size 1 equal to the recorded best size
1 leaves the recorded candidate `"x"` in place and only moves `low` up. -/
theorem c9_tie_keeps_earlier_witness :
    bsLoop constBlob .jpeg 3 3 5 1 ⟨0, 1, "x", 1, []⟩ =
      bsLoop constBlob .jpeg 3 3 5 0
        ⟨(0 + 1) / 2, 1, "x", 1, [((0 + 1) / 2,
          calculateFileSizeKB (resizeImage constBlob 3 3 ((0 + 1) / 2) .jpeg))]⟩ ∧
    List.Chain' (· < ·) (((bsLoop constBlob .jpeg 3 3 5 0
      ⟨0, 1, "", 0, []⟩).probes.filter (fun p => decide (p.2 ≤ 5))).map Prod.fst) :=
  c9_tie_keeps_earlier constBlob .jpeg 3 3 5 0 ⟨0, 1, "x", 1, []⟩
    (by decide) (by decide) (by decide)

/-- C7: one round of the dimension refinement loop, stated with the claim's
interval guards: an infeasible round scales both dimensions by ×0.90 and
continues; a feasible round with gap = target − candidate size stops the loop
at gap ≤ 2, and otherwise scales by ×1.02 for 2 < gap < 5, ×1.05 for
5 ≤ gap < 20 and ×1.10 for gap ≥ 20, posting the round's progress before
continuing; scaling rounds each dimension independently to the nearest
integer. -/
theorem c7_gap_branching (blob : BlobOracle) (format : Format)
    (t r i wd ht : ℕ) (img : String) (b : ℕ) (msgs : List WorkerMsg) (enc : ℕ) :
    (∀ (w h : ℕ) (f : ℚ), scaleDimensions w h f = (jsRound (w * f), jsRound (h * f))) ∧
    dimLoopAux blob format t (r + 1) i ⟨wd, ht, img, b, msgs, enc⟩ =
      (let res := strictBinarySearchQuality blob format wd ht t
       let s1 : LoopState := ⟨wd, ht, img, b, msgs, enc + res.probes.length⟩
       if res.image = "" then
         let d := scaleDimensions wd ht (9/10)
         dimLoopAux blob format t r (i + 1)
           { s1 with
             width := d.1, height := d.2, msgs := msgs ++ [progressMsgAt i] }
       else
         let fs := res.fileSize.untop' 0
         let s2 : LoopState :=
           if fs > b then
             { s1 with bestOverallImage := res.image, bestOverallSize := fs }
           else s1
         let gap : ℤ := (t : ℤ) - (fs : ℤ)
         if gap ≤ 2 then s2
         else if 2 < gap ∧ gap < 5 then
           let d := scaleDimensions s2.width s2.height (51/50)
           dimLoopAux blob format t r (i + 1)
             { s2 with
               width := d.1, height := d.2, msgs := s2.msgs ++ [progressMsgAt i] }
         else if 5 ≤ gap ∧ gap < 20 then
           let d := scaleDimensions s2.width s2.height (21/20)
           dimLoopAux blob format t r (i + 1)
             { s2 with
               width := d.1, height := d.2, msgs := s2.msgs ++ [progressMsgAt i] }
         else
           let d := scaleDimensions s2.width s2.height (11/10)
           dimLoopAux blob format t r (i + 1)
             { s2 with
               width := d.1, height := d.2, msgs := s2.msgs ++ [progressMsgAt i] }) := by
  refine ⟨fun w h f => rfl, ?_⟩
  simp only [dimLoopAux]
  by_cases hemp : (strictBinarySearchQuality blob format wd ht t).image = ""
  · simp only [if_pos hemp]
  · by_cases h2 : (t : ℤ) -
        (((strictBinarySearchQuality blob format wd ht t).fileSize.untop' 0 : ℕ) : ℤ) ≤ 2
    · simp only [if_neg hemp, if_pos h2]
    · by_cases h20 : (t : ℤ) -
          (((strictBinarySearchQuality blob format wd ht t).fileSize.untop' 0 : ℕ) : ℤ) ≥ 20
      · simp only [if_neg hemp, if_neg h2, if_pos h20,
          if_neg (show ¬((2:ℤ) < (t : ℤ) -
            (((strictBinarySearchQuality blob format wd ht t).fileSize.untop' 0 : ℕ) : ℤ) ∧
            (t : ℤ) - (((strictBinarySearchQuality blob format wd ht
              t).fileSize.untop' 0 : ℕ) : ℤ) < 5) from by omega),
          if_neg (show ¬((5:ℤ) ≤ (t : ℤ) -
            (((strictBinarySearchQuality blob format wd ht t).fileSize.untop' 0 : ℕ) : ℤ) ∧
            (t : ℤ) - (((strictBinarySearchQuality blob format wd ht
              t).fileSize.untop' 0 : ℕ) : ℤ) < 20) from by omega)]
      · by_cases h5 : (t : ℤ) -
            (((strictBinarySearchQuality blob format wd ht t).fileSize.untop' 0 : ℕ) : ℤ) ≥ 5
        · simp only [if_neg hemp, if_neg h2, if_neg h20, if_pos h5,
            if_neg (show ¬((2:ℤ) < (t : ℤ) -
              (((strictBinarySearchQuality blob format wd ht t).fileSize.untop' 0 : ℕ) : ℤ) ∧
              (t : ℤ) - (((strictBinarySearchQuality blob format wd ht
                t).fileSize.untop' 0 : ℕ) : ℤ) < 5) from by omega),
            if_pos (show (5:ℤ) ≤ (t : ℤ) -
              (((strictBinarySearchQuality blob format wd ht t).fileSize.untop' 0 : ℕ) : ℤ) ∧
              (t : ℤ) - (((strictBinarySearchQuality blob format wd ht
                t).fileSize.untop' 0 : ℕ) : ℤ) < 20 from by omega)]
        · simp only [if_neg hemp, if_neg h2, if_neg h20, if_neg h5,
            if_pos (show (2:ℤ) < (t : ℤ) -
              (((strictBinarySearchQuality blob format wd ht t).fileSize.untop' 0 : ℕ) : ℤ) ∧
              (t : ℤ) - (((strictBinarySearchQuality blob format wd ht
                t).fileSize.untop' 0 : ℕ) : ℤ) < 5 from by omega)]

/-- Executable check that a list of naturals is non-decreasing. -/
def chainLe : List ℕ → Bool
  | a :: b :: rest => decide (a ≤ b) && chainLe (b :: rest)
  | _ => true

theorem chainLe_correct : ∀ l : List ℕ, chainLe l = true → List.Chain' (· ≤ ·) l
  | [] => fun _ => List.chain'_nil
  | [a] => fun _ => List.chain'_singleton a
  | a :: b :: rest => fun hc => by
    simp only [chainLe, Bool.and_eq_true, decide_eq_true_eq] at hc
    exact List.chain'_cons.2 ⟨hc.1, chainLe_correct (b :: rest) hc.2⟩

/-- C8: across a session the recorded best size never regresses: the
dimension loop's and the nudge pass's best sizes are non-decreasing, the best
image is replaced only when the best size strictly increases and (whenever the
previous best was feasible) stays within the target, and the forced-minimal
fallback runs only when the dimension loop recorded no candidate at all. -/
theorem c8_best_never_regresses (blob : BlobOracle) (format : Format)
    (t mw mh r i wd ht : ℕ) (img : String) (b : ℕ) (msgs : List WorkerMsg)
    (enc f wd2 ht2 : ℕ) (img2 : String) (b2 enc2 : ℕ) :
    b ≤ (dimLoopAux blob format t r i ⟨wd, ht, img, b, msgs, enc⟩).bestOverallSize ∧
    ((dimLoopAux blob format t r i ⟨wd, ht, img, b, msgs, enc⟩).bestOverallImage ≠ img →
      b < (dimLoopAux blob format t r i ⟨wd, ht, img, b, msgs, enc⟩).bestOverallSize ∧
      (b ≤ t →
        (dimLoopAux blob format t r i ⟨wd, ht, img, b, msgs, enc⟩).bestOverallSize ≤ t)) ∧
    b2 ≤ (nudgeLoop blob format t f ⟨wd2, ht2, img2, b2, enc2⟩).bestOverallSize ∧
    ((nudgeLoop blob format t f ⟨wd2, ht2, img2, b2, enc2⟩).bestOverallImage ≠ img2 →
      b2 < (nudgeLoop blob format t f ⟨wd2, ht2, img2, b2, enc2⟩).bestOverallSize ∧
      (b2 ≤ t →
        (nudgeLoop blob format t f ⟨wd2, ht2, img2, b2, enc2⟩).bestOverallSize ≤ t)) ∧
    ((session blob format t mw mh).usedFallback = true →
      (dimLoopAux blob format t maxIterations 0
        ⟨mw, mh, "", 0, [], 0⟩).bestOverallImage = "") := by
  obtain ⟨hd1, hd2, hd3⟩ := dimLoop_inv blob format t r i wd ht img b msgs enc
  obtain ⟨hn1, hn2, hn3⟩ := nudge_inv blob format t f wd2 ht2 img2 b2 enc2
  refine ⟨hd1,
    fun hne => ⟨hd3 hne, fun hbt => le_trans hd2 (le_of_eq (max_eq_right hbt))⟩,
    hn1,
    fun hne => ⟨hn3 hne, fun hbt => le_trans hn2 (le_of_eq (max_eq_right hbt))⟩, ?_⟩
  simp only [session, finishSession]
  split
  · next hd =>
    exact fun _ => hd
  · intro hcontra
    simp at hcontra

unseal Rat.add Rat.sub Rat.mul Rat.inv in
/-- Witness for C8: the dimension loop's replacement at target 1 (best moves
from nothing to a 1 KB candidate), the nudge pass's replacement at target 10,
and the fallback's activation condition at target 0. -/
theorem c8_best_never_regresses_witness :
    (0 < (dimLoopAux constBlob .jpeg 1 12 0 ⟨10, 10, "", 0, [], 0⟩).bestOverallSize ∧
      (0 ≤ 1 →
        (dimLoopAux constBlob .jpeg 1 12 0 ⟨10, 10, "", 0, [], 0⟩).bestOverallSize ≤ 1)) ∧
    (0 < (nudgeLoop constBlob .jpeg 10 5 ⟨10, 10, "", 0, 0⟩).bestOverallSize ∧
      (0 ≤ 10 →
        (nudgeLoop constBlob .jpeg 10 5 ⟨10, 10, "", 0, 0⟩).bestOverallSize ≤ 10)) ∧
    (dimLoopAux constBlob .jpeg 0 maxIterations 0
      ⟨100, 100, "", 0, [], 0⟩).bestOverallImage = "" :=
  ⟨(c8_best_never_regresses constBlob .jpeg 1 100 100 12 0 10 10 "" 0 [] 0
      5 10 10 "" 0 0).2.1 (by decide),
   (c8_best_never_regresses constBlob .jpeg 10 100 100 12 0 10 10 "" 0 [] 0
      5 10 10 "" 0 0).2.2.2.1 (by decide),
   (c8_best_never_regresses constBlob .jpeg 0 100 100 12 0 10 10 "" 0 [] 0
      5 10 10 "" 0 0).2.2.2.2 (by decide)⟩

unseal Rat.add Rat.sub Rat.mul Rat.inv in
/-- C4 counterexample: in the session where all 12 rounds run, the 12th
per-round progress message reports `Math.round(12/12*100) = 100` and the final
result message also reports 100, so two notifications carry progress 100 —
not exactly one. -/
theorem c4_counterexample :
    ((session constBlob .jpeg 0 100 100).msgs.filter
      (fun m => decide (m.progress = some 100))).length = 2 := by
  decide

unseal Rat.add Rat.sub Rat.mul Rat.inv in
/-- C4 amended: the posted progress percentages are monotonically
non-decreasing within [0, 100] and the last message carries the final result
with progress 100; however, when the refinement loop runs all 12 rounds its
last per-round notification also reports 100, so up to two messages may carry
progress 100 (the claim's "exactly one" fails); only the final message carries
result fields. -/
theorem c4_amended_progress (blob : BlobOracle) (format : Format)
    (t mw mh : ℕ) :
    List.Chain' (· ≤ ·)
      ((session blob format t mw mh).msgs.filterMap (fun m => m.progress)) ∧
    (∀ p ∈ (session blob format t mw mh).msgs.filterMap (fun m => m.progress),
      p ≤ 100) ∧
    (session blob format t mw mh).msgs.getLast? =
      some ⟨some (session blob format t mw mh).finalImage,
        some (session blob format t mw mh).finalSize, some 100, none⟩ ∧
    ((session blob format t mw mh).msgs.filter
      (fun m => decide (m.progress = some 100))).length ≤ 2 ∧
    (∀ m ∈ (session blob format t mw mh).msgs.dropLast,
      m.resizedImage = none ∧ m.fileSize = none ∧ m.error = none) := by
  obtain ⟨k, hk, hmsgs⟩ := session_msgs blob format t mw mh
  have key : ∀ k' < 13,
      chainLe (((List.range k').map progressMsgAt).filterMap
        (fun (m : WorkerMsg) => m.progress) ++ [100]) = true ∧
      ((((List.range k').map progressMsgAt).filterMap
        (fun (m : WorkerMsg) => m.progress) ++ [100]).all
          (fun p => decide (p ≤ 100)) = true) ∧
      (((List.range k').map progressMsgAt).filter
        (fun m => decide (m.progress = some 100))).length ≤ 1 := by decide
  obtain ⟨key1, key2, key3⟩ := key k (by
    have : maxIterations = 12 := rfl
    omega)
  refine ⟨?_, ?_, ?_, ?_, ?_⟩
  · rw [hmsgs, List.filterMap_append]
    exact chainLe_correct _ key1
  · rw [hmsgs, List.filterMap_append]
    intro p hp
    exact of_decide_eq_true (List.all_eq_true.1 key2 p hp)
  · rw [hmsgs]
    exact List.getLast?_concat _
  · rw [hmsgs, List.filter_append, List.length_append]
    have hone : (([(⟨some (session blob format t mw mh).finalImage,
        some (session blob format t mw mh).finalSize, some 100, none⟩ : WorkerMsg)].filter
          (fun m => decide (m.progress = some 100))).length = 1) := rfl
    omega
  · have hdl : (session blob format t mw mh).msgs.dropLast =
        (List.range k).map progressMsgAt := by
      rw [hmsgs]
      exact List.dropLast_concat
    rw [hdl]
    intro m hm
    obtain ⟨j, -, rfl⟩ := List.mem_map.1 hm
    exact ⟨rfl, rfl, rfl⟩

end TinyPic
